import Mathlib

/-!
Verification of the `ltq` task-queue library: shallow embedding of the
message envelope, brokers, worker dispatch, middleware and scheduler,
with theorems checking the specification's claims against the code.
-/

namespace Ltq

/-- JSON values, the payload universe of the wire format
(`json.dumps` / `json.loads` operate on exactly these shapes;
numbers are idealised as rationals). -/
inductive JsonVal where
  | null : JsonVal
  | bool : Bool → JsonVal
  | num : ℚ → JsonVal
  | str : String → JsonVal
  | arr : List JsonVal → JsonVal
  | obj : List (String × JsonVal) → JsonVal
deriving Repr

mutual

/-- Structural equality of JSON values.  `json.dumps` is injective on
decoded values (our wire texts carry no duplicate keys), so equality of
the serialized strings used as broker keys coincides with structural
equality of the decoded values. -/
def JsonVal.beq : JsonVal → JsonVal → Bool
  | .null, .null => true
  | .bool a, .bool b => a == b
  | .num a, .num b => a == b
  | .str a, .str b => a == b
  | .arr a, .arr b => JsonVal.beqList a b
  | .obj a, .obj b => JsonVal.beqObj a b
  | _, _ => false

/-- Elementwise equality of JSON arrays. -/
def JsonVal.beqList : List JsonVal → List JsonVal → Bool
  | [], [] => true
  | a :: as, b :: bs => JsonVal.beq a b && JsonVal.beqList as bs
  | _, _ => false

/-- Entrywise equality of JSON objects (key order significant, as in the
serialized text). -/
def JsonVal.beqObj : List (String × JsonVal) → List (String × JsonVal) → Bool
  | [], [] => true
  | (k, v) :: as, (l, w) :: bs => k == l && JsonVal.beq v w && JsonVal.beqObj as bs
  | _, _ => false

end


/-! ## Message envelope (`src/ltq/message.py`) -/

/-- The `Message` dataclass: positional payload `args` (a Python tuple,
serialized as a JSON array), named payload `kwargs`, routing name
`task_name`, the optional back-reference `task` (only set by
`Task.message`, never serialized; modelled by the task's name), the
per-attempt context `ctx` and the unique `id`. -/
structure Message where
  args : List JsonVal
  kwargs : List (String × JsonVal)
  task_name : String
  task : Option String := none
  ctx : List (String × JsonVal) := []
  id : String
deriving Repr

/-- `Message.to_json`: `json.dumps` of the five-key object, modelled at the
level of the decoded JSON value (the serialized text is the unique dump of
this value). -/
def Message.to_json (m : Message) : JsonVal :=
  .obj [("task_name", .str m.task_name),
        ("id", .str m.id),
        ("args", .arr m.args),
        ("kwargs", .obj m.kwargs),
        ("ctx", .obj m.ctx)]

/-- Key lookup in a decoded JSON object, as the `**`-splat of
`json.loads` resolves keyword arguments. -/
def jsonGet : List (String × JsonVal) → String → Option JsonVal
  | [], _ => none
  | (l, v) :: rest, k => if l = k then some v else jsonGet rest k

/-- `Message.from_json`: `cls(**json.loads(data))` — decode the object and
build the dataclass from the five serialized fields (`task` keeps its
default `None`).  Inputs not carrying the five fields with their wire
shapes fail, as the dataclass constructor raises for missing required
arguments. -/
def Message.from_json (j : JsonVal) : Option Message :=
  match j with
  | .obj fields =>
    match jsonGet fields "task_name", jsonGet fields "id", jsonGet fields "args",
        jsonGet fields "kwargs", jsonGet fields "ctx" with
    | some (.str tn), some (.str i), some (.arr a), some (.obj kw), some (.obj c) =>
        some { args := a, kwargs := kw, task_name := tn, task := none, ctx := c, id := i }
    | _, _, _, _, _ => none
  | _ => none

/-- Semantic equality of messages over the five serialized fields
(`task_name`, `id`, `args`, `kwargs`, `ctx`); the unserialized `task`
back-reference is not compared. -/
def Message.sameFive (a b : Message) : Prop :=
  a.task_name = b.task_name ∧ a.id = b.id ∧ a.args = b.args ∧
    a.kwargs = b.kwargs ∧ a.ctx = b.ctx


/-! ## Worker dispatch (`src/ltq/worker.py`, `Worker._process`)

`_process` runs the middleware chain around `task.fn` and classifies the
outcome of that body.  The signal exceptions are declared in
`src/ltq/errors.py` (`RejectMessage` — drop; `RetryMessage` — re-queue
after `delay`). -/

/-- Outcome of the body of `Worker._process` (middleware chain plus
`task.fn`): a normal return, an escaping Reject signal, an escaping Retry
signal carrying its `delay`, or any other exception (a crash). -/
inductive Outcome where
  | success : Outcome
  | reject : Outcome
  | retry : ℚ → Outcome
  | crash : Outcome
deriving DecidableEq, Repr

/-- A completion call made on the broker. -/
inductive BrokerCall where
  | ack : Message → BrokerCall
  | nack : Message → ℚ → Bool → BrokerCall
deriving Repr

/-- Python's `e.delay or 0`: a falsy (zero) delay is replaced by `0`,
which is numerically the identity. -/
def orZero (d : ℚ) : ℚ := if d = 0 then 0 else d

/-- `Worker._process`: the task-name sanity check precedes the body
(a mismatch raises the Reject signal before any middleware runs); the
`except` clauses then translate the outcome into exactly one broker
completion call.  Broker calls themselves are modelled as non-failing. -/
def Worker.process (taskName : String) (m : Message) (body : Outcome) : List BrokerCall :=
  if m.task_name ≠ taskName then
    [.nack m 0 true]
  else
    match body with
    | .success => [.ack m]
    | .reject => [.nack m 0 true]
    | .retry d => [.nack m (orZero d) false]
    | .crash => [.nack m 0 true]


/-! ## Brokers (`src/ltq/broker.py`)

Both brokers key their per-task ready structure by the serialized
message text; we model the key by the decoded JSON value (`json.dumps`
is injective on decoded values) and scores/times by rationals.
`MemoryBroker` keeps a Python dict (insertion-ordered, unique keys);
`RedisBroker` keeps a sorted set, also a map from member to score. -/

/-- An entry of a ready structure: serialized message and its
visibility score. -/
abbrev ZEntry := JsonVal × ℚ

/-- Membership test of a key, as Python's `k in d` / redis member lookup. -/
def containsKey : List ZEntry → JsonVal → Bool
  | [], _ => false
  | (l, _) :: rest, k => JsonVal.beq l k || containsKey rest k

/-- `d[k] = v` on a Python dict (and `ZADD` on a sorted set): an existing
key keeps its position and gets the new score; a new key is appended. -/
def setScore : List ZEntry → JsonVal → ℚ → List ZEntry
  | [], k, v => [(k, v)]
  | (l, s) :: rest, k, v =>
      if JsonVal.beq l k then (l, v) :: rest
      else (l, s) :: setScore rest k v

/-- Score of a key, `d[k]` / `ZSCORE`. -/
def lookupScore : List ZEntry → JsonVal → Option ℚ
  | [], _ => none
  | (l, s) :: rest, k => if JsonVal.beq l k then some s else lookupScore rest k

/-- Number of entries stored under a key (a dict or sorted set holds at
most one). -/
def countKey (q : List ZEntry) (k : JsonVal) : ℕ :=
  (q.filter (fun e => JsonVal.beq e.1 k)).length

/-- `ZREM` / `del d[k]`: remove the entry of a key (the first match;
under unique keys, the only one). -/
def zrem : List ZEntry → JsonVal → List ZEntry
  | [], _ => []
  | (l, s) :: rest, k => if JsonVal.beq l k then rest else (l, s) :: zrem rest k

/-- `MemoryBroker.publish`: `self._queues[task_name][message.to_json()] =
time.time() + delay`. -/
def MemoryBroker.publish (q : List ZEntry) (m : Message) (now delay : ℚ) : List ZEntry :=
  setScore q (Message.to_json m) (now + delay)

/-- One poll pass of `MemoryBroker.consume`: scan the queue in insertion
order and return the first entry whose score is `≤ now`, deleting it
(`del self._queues[queue][msg]`); `none` when no entry is eligible (the
loop then sleeps 0.1 s and rescans). -/
def MemoryBroker.consumeStep : List ZEntry → ℚ → Option (JsonVal × List ZEntry)
  | [], _ => none
  | (k, s) :: rest, now =>
      if s ≤ now then some (k, rest)
      else
        match MemoryBroker.consumeStep rest now with
        | some kq => some (kq.1, (k, s) :: kq.2)
        | none => none

/-- `ZRANGEBYSCORE key lo hi LIMIT 0 1`: a member of minimal score among
those with score in `[lo, hi]` (redis breaks score ties by member byte
order; the model keeps the earlier member, and no theorem below depends
on the tie-break). -/
def zrangeMin : List ZEntry → ℚ → ℚ → Option ZEntry
  | [], _, _ => none
  | (k, s) :: rest, lo, hi =>
      match zrangeMin rest lo hi with
      | none => if lo ≤ s ∧ s ≤ hi then some (k, s) else none
      | some e =>
          if lo ≤ s ∧ s ≤ hi then (if s ≤ e.2 then some (k, s) else e) else some e

/-- `RedisBroker.publish`: `ZADD queue:{task_name} {to_json(m): now + delay}`. -/
def RedisBroker.publish (q : List ZEntry) (m : Message) (now delay : ℚ) : List ZEntry :=
  setScore q (Message.to_json m) (now + delay)

/-- One poll pass of `RedisBroker.consume`: query the earliest member of
the ready set with score in `[0, now]`; if present, add it to this
consumer's processing set with score `now` and remove it from the ready
set.  Returns the member with the updated ready and processing sets. -/
def RedisBroker.consumeStep (ready processing : List ZEntry) (now : ℚ) :
    Option (JsonVal × List ZEntry × List ZEntry) :=
  match zrangeMin ready 0 now with
  | some e => some (e.1, zrem ready e.1, setScore processing e.1 now)
  | none => none

/-! ### Broker lemmas -/

/-- A concrete message used by witnesses. -/
def mEx : Message :=
  { args := [.num 1], kwargs := [("who", .str "ada")], task_name := "w:greet",
    task := none, ctx := [("created_at", .num 100)], id := "id-1" }

/-! ## Task (`src/ltq/task.py`) -/

/-- The `Task` binding: a name bound to a callable and queue (the
callable and queue objects play no role in the embedded operations). -/
structure TaskModel where
  name : String

/-- The keyword arguments supplied to the `Message` dataclass
constructor. -/
structure MessageKwargs where
  args : Option (List JsonVal) := none
  kwargs : Option (List (String × JsonVal)) := none
  task_name : Option String := none
  task : Option String := none
  ctx : Option (List (String × JsonVal)) := none
  id : Option String := none

/-- The `Message` dataclass constructor: `args`, `kwargs` and `task_name`
have no default and are required; `task` defaults to `None`, `ctx` to an
empty dict and `id` to a fresh `uuid4().hex` (supplied as `freshId`).
Omitting a required argument raises `TypeError`. -/
def Message.construct (freshId : String) (kw : MessageKwargs) : Except String Message :=
  match kw.args, kw.kwargs, kw.task_name with
  | some a, some k, some tn =>
      .ok { args := a, kwargs := k, task_name := tn, task := kw.task,
            ctx := kw.ctx.getD [], id := kw.id.getD freshId }
  | _, _, _ => .error "TypeError: missing required argument task_name"

/-- `Task.message` as written in the source: it calls
`Message(args=args, kwargs=kwargs, task=self.name)`, passing the task's
name as the `task` field and omitting the required `task_name`. -/
def TaskModel.message (t : TaskModel) (freshId : String) (args : List JsonVal)
    (kwargs : List (String × JsonVal)) : Except String Message :=
  Message.construct freshId
    { args := some args, kwargs := some kwargs, task := some t.name }

/-! ## Middleware (`src/ltq/middleware.py`) -/

/-- Configuration of the retry-accounting middleware `Retry`. -/
structure RetryMw where
  max_retries : ℕ
  min_delay : ℚ
  max_delay : ℚ
  backoff : ℚ

/-- The exception `Retry.handle` lets escape after the wrapped handler
raised: either the Retry signal `RetryMessage(delay)` or the original
exception re-raised. -/
inductive MwSignal where
  | reraise : MwSignal
  | retrySignal : ℚ → MwSignal
deriving DecidableEq, Repr

/-- Observable behaviour of one `Retry.handle` call. -/
structure HandleResult where
  invoked : Bool
  triesAfter : ℕ
  signal : Option MwSignal
deriving DecidableEq, Repr

/-- `Retry.handle`: read `retries` from `ctx` (default 0), call
`next_handler(message)` unconditionally; if it raises, increment the
count, store it in `ctx`, and with `max_retries = max(self.max_retries -
1, 0)` (ℕ subtraction truncates the same way) either re-raise the
original exception (`retries > max_retries`) or raise
`RetryMessage(delay)` with `delay = min(min_delay * backoff^(retries -
1), max_delay)`. -/
def Retry.handle (mw : RetryMw) (tries : ℕ) (handlerRaises : Bool) : HandleResult :=
  if handlerRaises then
    let r := tries + 1
    let maxr := mw.max_retries - 1
    if r > maxr then
      { invoked := true, triesAfter := r, signal := some .reraise }
    else
      { invoked := true, triesAfter := r,
        signal := some (.retrySignal (min (mw.min_delay * mw.backoff ^ (r - 1)) mw.max_delay)) }
  else
    { invoked := true, triesAfter := tries, signal := none }

/-- The middleware classes defined in `src/ltq/middleware.py`: `Retry`,
`RateLimit`, `Timeout` and `Sentry`, each carrying its constructor
state.  Every class exposes only `handle(message, next_handler)`; none
defines `__call__` or the async context-manager protocol. -/
inductive MiddlewareClass where
  | retryClass : RetryMw → MiddlewareClass
  | rateLimitClass : ℚ → MiddlewareClass
  | timeoutClass : ℚ → MiddlewareClass
  | sentryClass : MiddlewareClass

/-- `middleware(message, task)` inside `Worker._process`: calling a
middleware instance.  No middleware class in `src/ltq/middleware.py`
defines `__call__`, so the call raises `TypeError` for each of them. -/
def MiddlewareClass.call : MiddlewareClass → Except String Unit
  | .retryClass _ => .error "TypeError: Retry object is not callable"
  | .rateLimitClass _ => .error "TypeError: RateLimit object is not callable"
  | .timeoutClass _ => .error "TypeError: Timeout object is not callable"
  | .sentryClass => .error "TypeError: Sentry object is not callable"

/-- What the body of `Worker._process` around `task.fn` did: whether
`task.fn` was reached, and the body's outcome. -/
structure BodyRun where
  fnInvoked : Bool
  outcome : Outcome
deriving Repr

/-- The body of `Worker._process`: enter each middleware in order with
`stack.enter_async_context(middleware(message, task))`; the first
middleware call that raises aborts the body with that exception (a
`TypeError`, unrecognized by the except clauses, hence a crash
outcome); only when every entry succeeds does `task.fn` run, with
outcome `fnOutcome`. -/
def runBody (mws : List MiddlewareClass) (fnOutcome : Outcome) : BodyRun :=
  match mws with
  | [] => { fnInvoked := true, outcome := fnOutcome }
  | mw :: rest =>
      match mw.call with
      | .error _ => { fnInvoked := false, outcome := .crash }
      | .ok _ => runBody rest fnOutcome

/-- Observable behaviour of one `RateLimit.handle` call. -/
structure RateLimitResult where
  sleepFor : ℚ
  lastAfter : ℚ
  runsHandler : Bool
  raisesRetry : Bool
  writesCtx : Bool
deriving DecidableEq, Repr

/-- `RateLimit.handle` (`min_interval = 1.0 / requests_per_second`):
under the instance lock, compute `elapsed = now - _last_request`; when
`elapsed < min_interval`, sleep the difference; set `_last_request` to
the time after the sleep; then call `next_handler(message)`
unconditionally.  It raises no signal and never touches `ctx`. -/
def RateLimit.handle (min_interval lastRequest now : ℚ) : RateLimitResult :=
  let elapsed := now - lastRequest
  let sleepFor := if elapsed < min_interval then min_interval - elapsed else 0
  { sleepFor := sleepFor, lastAfter := now + sleepFor,
    runsHandler := true, raisesRetry := false, writesCtx := false }

/-! ## Scheduler (`src/ltq/scheduler.py`) -/

/-- A `ScheduledJob`: the template message and the next fire time
(`croniter` supplies following fire times through a parameter below). -/
structure SJob where
  msg : Message
  next_run : ℚ
deriving Repr

/-- `ScheduledJob.advance`: `self.next_run = self._cron.get_next(...)`;
only `next_run` changes, the template message is untouched. -/
def SJob.advance (cronNext : ℚ) (j : SJob) : SJob :=
  { j with next_run := cronNext }

/-- The `for job in due` loop inside the single `try` of
`Scheduler.run`: publish each due job's template message
(`broker.publish(job.msg)`) and advance it; the first failing publish
raises out of the loop, so later due jobs are neither published nor
advanced in this tick.  `fails` says which publishes raise; `cron`
supplies each job's next fire time. -/
def publishDue (fails : Message → Bool) (cron : SJob → ℚ) :
    List SJob → List Message × List SJob
  | [] => ([], [])
  | j :: rest =>
      if fails j.msg then ([], j :: rest)
      else
        let r := publishDue fails cron rest
        (j.msg :: r.1, SJob.advance (cron j) j :: r.2)

/-- One tick of `Scheduler.run`: collect the due jobs
(`now >= job.next_run`) and run the publish loop on them; returns the
published messages and the due jobs after the tick. -/
def schedTick (fails : Message → Bool) (cron : SJob → ℚ) (jobs : List SJob)
    (now : ℚ) : List Message × List SJob :=
  publishDue fails cron (jobs.filter (fun j => decide (j.next_run ≤ now)))

/-! ## Worker concurrency (`src/ltq/worker.py`, `Worker._poll`) -/

/-- State of one task's poll loop: free slots of the per-task
`asyncio.Semaphore(concurrency)` and the number of spawned `_process`
executions not yet finished. -/
structure WState where
  available : ℕ
  inflight : ℕ
deriving DecidableEq, Repr

/-- Events of the poll/dispatch loop: `_poll` awaits `sem.acquire()`
before `asyncio.create_task(self._process(...))`, and every `_process`
run ends in `finally: sem.release()`, whatever its outcome
(success, reject, retry or crash). -/
inductive WStep : WState → WState → Prop
  | spawn (s : WState) (h : 0 < s.available) :
      WStep s ⟨s.available - 1, s.inflight + 1⟩
  | finish (s : WState) (o : Outcome) (h : 0 < s.inflight) :
      WStep s ⟨s.available + 1, s.inflight - 1⟩

/-- States reachable from the start of `_poll` (full semaphore, nothing
in flight). -/
inductive WReachable (c : ℕ) : WState → Prop
  | start : WReachable c ⟨c, 0⟩
  | step (s t : WState) : WReachable c s → WStep s t → WReachable c t

/-- A second concrete message (distinct id) used by counterexamples. -/
def mEx2 : Message :=
  { args := [], kwargs := [], task_name := "w:greet",
    task := none, ctx := [], id := "id-2" }

/-- A concrete scheduled job used by counterexamples. -/
def jEx : SJob := { msg := mEx, next_run := 0 }

/-! ## Theorems -/

mutual

theorem JsonVal.beq_refl : ∀ (a : JsonVal), JsonVal.beq a a = true
  | .null => rfl
  | .bool a => by simp [JsonVal.beq]
  | .num a => by simp [JsonVal.beq]
  | .str a => by simp [JsonVal.beq]
  | .arr a => by simp [JsonVal.beq, JsonVal.beqList_refl a]
  | .obj a => by simp [JsonVal.beq, JsonVal.beqObj_refl a]

theorem JsonVal.beqList_refl : ∀ (as : List JsonVal), JsonVal.beqList as as = true
  | [] => rfl
  | a :: as => by simp [JsonVal.beqList, JsonVal.beq_refl a, JsonVal.beqList_refl as]

theorem JsonVal.beqObj_refl : ∀ (as : List (String × JsonVal)), JsonVal.beqObj as as = true
  | [] => rfl
  | (k, v) :: as => by simp [JsonVal.beqObj, JsonVal.beq_refl v, JsonVal.beqObj_refl as]

end

/-- C1: deserializing the serialization of any message `m` succeeds and
yields a message that agrees with `m` on all five serialized fields
(`task_name`, `id`, `args`, `kwargs`, `ctx`). -/
theorem serialization_round_trip (m : Message) :
    ∃ m2, Message.from_json (Message.to_json m) = some m2 ∧ Message.sameFive m2 m := by
  refine ⟨{ args := m.args, kwargs := m.kwargs, task_name := m.task_name,
            task := none, ctx := m.ctx, id := m.id }, ?_, ?_⟩
  · rfl
  · exact ⟨rfl, rfl, rfl, rfl, rfl⟩

/-- C2: `Worker._process` makes exactly one broker completion call, and it
is determined by the outcome: `ack` on normal return; `nack` with
`drop = true` on a Reject signal, on a task-name mismatch and on any other
exception; `nack` with the signal's delay and `drop = false` on a Retry
signal. -/
theorem process_single_completion_call (taskName : String) (m : Message) (body : Outcome) :
    (Worker.process taskName m body).length = 1 ∧
    (m.task_name = taskName →
      Worker.process taskName m body =
        (match body with
          | .success => [BrokerCall.ack m]
          | .reject => [BrokerCall.nack m 0 true]
          | .retry d => [BrokerCall.nack m d false]
          | .crash => [BrokerCall.nack m 0 true])) ∧
    (m.task_name ≠ taskName →
      Worker.process taskName m body = [BrokerCall.nack m 0 true]) := by
  refine ⟨?_, ?_, ?_⟩
  · unfold Worker.process
    by_cases h : m.task_name = taskName
    · simp only [h, ne_eq, not_true_eq_false, if_false]
      cases body <;> rfl
    · simp [h]
  · intro h
    unfold Worker.process
    simp only [h, ne_eq, not_true_eq_false, if_false]
    cases body with
    | retry d =>
        simp only [orZero]
        by_cases hd : d = 0 <;> simp [hd]
    | _ => rfl
  · intro h
    unfold Worker.process
    simp [h]

theorem zrangeMin_eq_none : ∀ (z : List ZEntry) (lo hi : ℚ),
    zrangeMin z lo hi = none → ∀ f ∈ z, ¬(lo ≤ f.2 ∧ f.2 ≤ hi) := by
  intro z
  induction z with
  | nil => intro lo hi _ f hf; simp at hf
  | cons a rest ih =>
    intro lo hi h f hf
    obtain ⟨k, s⟩ := a
    simp only [zrangeMin] at h
    cases hrec : zrangeMin rest lo hi with
    | none =>
      rw [hrec] at h
      dsimp only at h
      by_cases hin : lo ≤ s ∧ s ≤ hi
      · simp [hin] at h
      · rcases List.mem_cons.mp hf with hf1 | hf2
        · subst hf1; exact hin
        · exact ih lo hi hrec f hf2
    | some e =>
      rw [hrec] at h
      dsimp only at h
      by_cases hin : lo ≤ s ∧ s ≤ hi
      · simp only [hin, if_true] at h
        by_cases hle : s ≤ e.2 <;> simp [hle] at h
      · simp [hin] at h

theorem zrangeMin_spec : ∀ (z : List ZEntry) (lo hi : ℚ) (e : ZEntry),
    zrangeMin z lo hi = some e →
    e ∈ z ∧ lo ≤ e.2 ∧ e.2 ≤ hi ∧ ∀ f ∈ z, lo ≤ f.2 → f.2 ≤ hi → e.2 ≤ f.2 := by
  intro z
  induction z with
  | nil => intro lo hi e h; simp [zrangeMin] at h
  | cons a rest ih =>
    intro lo hi e h
    obtain ⟨k, s⟩ := a
    simp only [zrangeMin] at h
    cases hrec : zrangeMin rest lo hi with
    | none =>
      rw [hrec] at h
      dsimp only at h
      by_cases hin : lo ≤ s ∧ s ≤ hi
      · rw [if_pos hin] at h
        injection h with h
        subst h
        refine ⟨List.mem_cons_self _ _, hin.1, hin.2, ?_⟩
        intro f hf hlo hhi
        rcases List.mem_cons.mp hf with hf1 | hf2
        · subst hf1; exact le_refl _
        · exact absurd ⟨hlo, hhi⟩ (zrangeMin_eq_none rest lo hi hrec f hf2)
      · rw [if_neg hin] at h
        exact absurd h (by simp)
    | some e2 =>
      rw [hrec] at h
      dsimp only at h
      obtain ⟨hmem, hlo2, hhi2, hmin2⟩ := ih lo hi e2 hrec
      by_cases hin : lo ≤ s ∧ s ≤ hi
      · rw [if_pos hin] at h
        by_cases hle : s ≤ e2.2
        · rw [if_pos hle] at h
          injection h with h
          subst h
          refine ⟨List.mem_cons_self _ _, hin.1, hin.2, ?_⟩
          intro f hf hlo hhi
          rcases List.mem_cons.mp hf with hf1 | hf2
          · subst hf1; exact le_refl _
          · exact le_trans hle (hmin2 f hf2 hlo hhi)
        · rw [if_neg hle] at h
          injection h with h
          subst h
          refine ⟨List.mem_cons_of_mem _ hmem, hlo2, hhi2, ?_⟩
          intro f hf hlo hhi
          rcases List.mem_cons.mp hf with hf1 | hf2
          · subst hf1; exact le_of_not_le hle
          · exact hmin2 f hf2 hlo hhi
      · rw [if_neg hin] at h
        injection h with h
        subst h
        refine ⟨List.mem_cons_of_mem _ hmem, hlo2, hhi2, ?_⟩
        intro f hf hlo hhi
        rcases List.mem_cons.mp hf with hf1 | hf2
        · subst hf1; exact absurd ⟨hlo, hhi⟩ hin
        · exact hmin2 f hf2 hlo hhi

theorem memory_consumeStep_spec : ∀ (q : List ZEntry) (now : ℚ) (k : JsonVal)
    (q2 : List ZEntry), MemoryBroker.consumeStep q now = some (k, q2) →
    ∃ pre s post, q = pre ++ (k, s) :: post ∧ q2 = pre ++ post ∧ s ≤ now ∧
      ∀ f ∈ pre, ¬(f.2 ≤ now) := by
  intro q
  induction q with
  | nil => intro now k q2 h; simp [MemoryBroker.consumeStep] at h
  | cons a rest ih =>
    intro now k q2 h
    obtain ⟨l, s⟩ := a
    simp only [MemoryBroker.consumeStep] at h
    by_cases hs : s ≤ now
    · simp only [hs, if_true, Option.some.injEq, Prod.mk.injEq] at h
      exact ⟨[], s, rest, by simp [h.1], by simp [h.2], hs, by simp⟩
    · simp only [hs, if_false] at h
      cases hrec : MemoryBroker.consumeStep rest now with
      | none => rw [hrec] at h; simp at h
      | some kq =>
        rw [hrec] at h
        dsimp only at h
        simp only [Option.some.injEq, Prod.mk.injEq] at h
        obtain ⟨pre, s0, post, hq, hq2, hs0, hpre⟩ := ih now kq.1 kq.2 (by rw [hrec])
        refine ⟨(l, s) :: pre, s0, post, ?_, ?_, hs0, ?_⟩
        · simp [hq, h.1]
        · simp [← h.2, hq2]
        · intro f hf
          rcases List.mem_cons.mp hf with hf1 | hf2
          · subst hf1; exact hs
          · exact hpre f hf2

/-- C3 counterexample: the in-memory `consume` does not return the
earliest-scored eligible message.  In a queue holding key `"a"` at score
10 (inserted first) and key `"b"` at score 5, a consume at time 10
returns `"a"` even though `"b"` is eligible with a strictly smaller
score. -/
theorem memory_consume_not_earliest_counterexample :
    MemoryBroker.consumeStep [(JsonVal.str "a", 10), (JsonVal.str "b", 5)] 10
      = some (JsonVal.str "a", [(JsonVal.str "b", 5)]) ∧
    (5 : ℚ) ≤ 10 ∧ (5 : ℚ) < 10 ∧ JsonVal.str "a" ≠ JsonVal.str "b" := by
  refine ⟨?_, by norm_num, by norm_num, by simp⟩
  simp [MemoryBroker.consumeStep]

/-- C3 (amended): both `consume` variants return only a message whose
visibility score is `≤ now` (so a message published at `t₀` with delay
`d` is never returned before `t₀ + d`), and both remove the returned
entry from the ready set.  The redis variant returns an entry of minimal
score among those with score in `[0, now]` and inserts it into the
consumer's processing set at score `now`; the in-memory variant instead
returns the first entry in insertion order whose score is `≤ now`, not
the earliest-scored one. -/
theorem consume_respects_visibility (q : List ZEntry) (now : ℚ) (k : JsonVal)
    (q2 : List ZEntry) (ready processing : List ZEntry) (k2 : JsonVal)
    (r2 p2 : List ZEntry)
    (hmem : MemoryBroker.consumeStep q now = some (k, q2))
    (hred : RedisBroker.consumeStep ready processing now = some (k2, r2, p2)) :
    (∃ pre s post, q = pre ++ (k, s) :: post ∧ q2 = pre ++ post ∧ s ≤ now ∧
       ∀ f ∈ pre, ¬(f.2 ≤ now)) ∧
    (∃ s2, (k2, s2) ∈ ready ∧ 0 ≤ s2 ∧ s2 ≤ now ∧
       (∀ f ∈ ready, 0 ≤ f.2 → f.2 ≤ now → s2 ≤ f.2) ∧
       r2 = zrem ready k2 ∧ p2 = setScore processing k2 now) := by
  refine ⟨memory_consumeStep_spec q now k q2 hmem, ?_⟩
  unfold RedisBroker.consumeStep at hred
  cases hz : zrangeMin ready 0 now with
  | none => rw [hz] at hred; simp at hred
  | some e =>
    rw [hz] at hred
    simp only [Option.some.injEq, Prod.mk.injEq] at hred
    obtain ⟨hmem2, hlo, hhi, hmin⟩ := zrangeMin_spec ready 0 now e hz
    refine ⟨e.2, ?_, hlo, hhi, hmin, ?_, ?_⟩
    · rw [← hred.1]; exact hmem2
    · rw [← hred.2.1, hred.1]
    · rw [← hred.2.2, hred.1]

/-- Witness for C3 (amended) at a concrete queue: one entry `"a"` at
score 3, consumed at time 5 by both variants. -/
theorem consume_respects_visibility_witness :
    (∃ pre s post,
       ([(JsonVal.str "a", 3)] : List ZEntry) = pre ++ (JsonVal.str "a", s) :: post ∧
       ([] : List ZEntry) = pre ++ post ∧ s ≤ 5 ∧ ∀ f ∈ pre, ¬(f.2 ≤ 5)) ∧
    (∃ s2, (JsonVal.str "a", s2) ∈ ([(JsonVal.str "a", 3)] : List ZEntry) ∧
       0 ≤ s2 ∧ s2 ≤ 5 ∧
       (∀ f ∈ ([(JsonVal.str "a", 3)] : List ZEntry), 0 ≤ f.2 → f.2 ≤ 5 → s2 ≤ f.2) ∧
       ([] : List ZEntry) = zrem [(JsonVal.str "a", 3)] (JsonVal.str "a") ∧
       ([(JsonVal.str "a", 5)] : List ZEntry) =
         setScore [] (JsonVal.str "a") 5) :=
  consume_respects_visibility [(JsonVal.str "a", 3)] 5 (JsonVal.str "a") []
    [(JsonVal.str "a", 3)] [] (JsonVal.str "a") [] [(JsonVal.str "a", 5)]
    (by rfl) (by rfl)

/-! ### Publish deduplication in the in-memory broker -/

theorem sameFive_to_json {m1 m2 : Message} (h : Message.sameFive m1 m2) :
    Message.to_json m1 = Message.to_json m2 := by
  obtain ⟨h1, h2, h3, h4, h5⟩ := h
  unfold Message.to_json
  rw [h1, h2, h3, h4, h5]

theorem map_fst_setScore_of_contains : ∀ (q : List ZEntry) (k : JsonVal) (v : ℚ),
    containsKey q k = true → (setScore q k v).map Prod.fst = q.map Prod.fst := by
  intro q
  induction q with
  | nil => intro k v h; simp [containsKey] at h
  | cons a rest ih =>
    intro k v h
    obtain ⟨l, s⟩ := a
    simp only [containsKey, Bool.or_eq_true] at h
    simp only [setScore]
    by_cases hb : JsonVal.beq l k = true
    · rw [if_pos hb]; simp
    · rw [if_neg hb]
      rcases h with h | h
      · exact absurd h hb
      · simp [ih k v h]

theorem containsKey_setScore : ∀ (q : List ZEntry) (k : JsonVal) (v : ℚ),
    containsKey (setScore q k v) k = true := by
  intro q
  induction q with
  | nil => intro k v; simp [setScore, containsKey, JsonVal.beq_refl]
  | cons a rest ih =>
    intro k v
    obtain ⟨l, s⟩ := a
    simp only [setScore]
    by_cases hb : JsonVal.beq l k = true
    · rw [if_pos hb]; simp [containsKey, hb]
    · rw [if_neg hb]; simp [containsKey, ih k v]

theorem lookupScore_setScore : ∀ (q : List ZEntry) (k : JsonVal) (v : ℚ),
    lookupScore (setScore q k v) k = some v := by
  intro q
  induction q with
  | nil => intro k v; simp [setScore, lookupScore, JsonVal.beq_refl]
  | cons a rest ih =>
    intro k v
    obtain ⟨l, s⟩ := a
    simp only [setScore]
    by_cases hb : JsonVal.beq l k = true
    · rw [if_pos hb]; simp [lookupScore, hb]
    · rw [if_neg hb]; simp [lookupScore, hb, ih k v]

theorem countKey_setScore : ∀ (q : List ZEntry) (k : JsonVal) (v : ℚ),
    countKey (setScore q k v) k =
      if containsKey q k = true then countKey q k else countKey q k + 1 := by
  intro q
  induction q with
  | nil => intro k v; simp [setScore, countKey, containsKey, JsonVal.beq_refl]
  | cons a rest ih =>
    intro k v
    obtain ⟨l, s⟩ := a
    simp only [setScore, containsKey, countKey, Bool.or_eq_true]
    by_cases hb : JsonVal.beq l k = true
    · rw [if_pos hb]
      simp [countKey, List.filter, hb]
    · rw [if_neg hb]
      have := ih k v
      simp only [countKey] at this
      simp only [List.filter, hb, Bool.false_or]
      by_cases hc : containsKey rest k = true
      · simp only [hc, if_true] at this ⊢
        simp [this, hb, hc]
      · simp only [hc, if_false] at this ⊢
        simp [this, hb, hc]

theorem countKey_eq_zero_of_not_contains : ∀ (q : List ZEntry) (k : JsonVal),
    containsKey q k = false → countKey q k = 0 := by
  intro q
  induction q with
  | nil => intro k _; rfl
  | cons a rest ih =>
    intro k h
    simp only [containsKey, Bool.or_eq_false_iff] at h
    simp only [countKey, List.filter, h.1]
    exact ih k h.2

theorem countKey_pos_of_contains : ∀ (q : List ZEntry) (k : JsonVal),
    containsKey q k = true → 1 ≤ countKey q k := by
  intro q
  induction q with
  | nil => intro k h; simp [containsKey] at h
  | cons a rest ih =>
    intro k h
    obtain ⟨l, s⟩ := a
    simp only [containsKey, Bool.or_eq_true] at h
    simp only [countKey, List.filter]
    by_cases hb : JsonVal.beq l k = true
    · simp [hb]
    · rcases h with h | h
      · exact absurd h hb
      · simpa [hb, countKey] using ih k h

/-- C10: the in-memory ready queue holds at most one entry per serialized
message.  Publishing `m1` into a well-formed queue that already contains
its serialization keeps the key list unchanged (only the score is
rewritten), and after publishing `m1` and then a semantically identical
`m2` (equal `task_name`, `id`, `args`, `kwargs`, `ctx`), the queue holds
exactly one entry under that serialization, carrying the score
`t2 + d2` of the second publish. -/
theorem memory_publish_collapses_duplicates (q : List ZEntry) (m1 m2 : Message)
    (t1 d1 t2 d2 : ℚ) (hfive : Message.sameFive m1 m2)
    (hq : countKey q (Message.to_json m1) ≤ 1) :
    (containsKey q (Message.to_json m1) = true →
       (MemoryBroker.publish q m1 t1 d1).map Prod.fst = q.map Prod.fst) ∧
    countKey (MemoryBroker.publish (MemoryBroker.publish q m1 t1 d1) m2 t2 d2)
        (Message.to_json m2) = 1 ∧
    lookupScore (MemoryBroker.publish (MemoryBroker.publish q m1 t1 d1) m2 t2 d2)
        (Message.to_json m2) = some (t2 + d2) := by
  have hjson : Message.to_json m1 = Message.to_json m2 := sameFive_to_json hfive
  unfold MemoryBroker.publish
  rw [← hjson]
  refine ⟨fun hc => map_fst_setScore_of_contains q _ _ hc, ?_, lookupScore_setScore _ _ _⟩
  rw [countKey_setScore]
  have hc1 : containsKey (setScore q (Message.to_json m1) (t1 + d1))
      (Message.to_json m1) = true := containsKey_setScore q _ _
  rw [if_pos hc1, countKey_setScore]
  by_cases hc0 : containsKey q (Message.to_json m1) = true
  · rw [if_pos hc0]
    exact le_antisymm hq (countKey_pos_of_contains q _ hc0)
  · rw [if_neg hc0]
    rw [countKey_eq_zero_of_not_contains q _ (Bool.eq_false_iff.mpr hc0)]


/-- Witness for C10: a concrete queue already holding the serialization of
a message, published twice. -/
theorem memory_publish_collapses_duplicates_witness :
    (containsKey [] (Message.to_json mEx) = true →
       (MemoryBroker.publish [] mEx 1 0).map Prod.fst = ([] : List ZEntry).map Prod.fst) ∧
    countKey (MemoryBroker.publish (MemoryBroker.publish [] mEx 1 0) mEx 7 2)
        (Message.to_json mEx) = 1 ∧
    lookupScore (MemoryBroker.publish (MemoryBroker.publish [] mEx 1 0) mEx 7 2)
        (Message.to_json mEx) = some (7 + 2) :=
  memory_publish_collapses_duplicates [] mEx mEx 1 0 7 2
    ⟨rfl, rfl, rfl, rfl, rfl⟩ (by simp [countKey])

/-- Witness for C2 at a concrete task name, message and outcome. -/
theorem process_single_completion_call_witness :
    (Worker.process "w:greet" mEx (Outcome.retry 5)).length = 1 ∧
    Worker.process "w:greet" mEx (Outcome.retry 5) = [BrokerCall.nack mEx 5 false] :=
  ⟨(process_single_completion_call "w:greet" mEx (Outcome.retry 5)).1,
   (process_single_completion_call "w:greet" mEx (Outcome.retry 5)).2.1 rfl⟩

/-- C4: `Task.message` never returns an envelope — the constructor call
passes the task's name as the `task` field and omits the required
`task_name`, so every invocation raises `TypeError` (and `ctx.created_at`
is nowhere set). -/
theorem task_message_raises (t : TaskModel) (freshId : String)
    (args : List JsonVal) (kwargs : List (String × JsonVal)) :
    TaskModel.message t freshId args kwargs =
      Except.error "TypeError: missing required argument task_name" := rfl

/-- C5 counterexample: with `max_retries = 3` and a recorded count
already at 3, `Retry.handle` still invokes the handler — there is no
entry check — and only afterwards lets the original exception escape
(count moving to 4). -/
theorem retry_no_entry_check_counterexample :
    (Retry.handle ⟨3, 1, 60, 2⟩ 3 true).invoked = true ∧
    (Retry.handle ⟨3, 1, 60, 2⟩ 3 true).signal = some MwSignal.reraise ∧
    (Retry.handle ⟨3, 1, 60, 2⟩ 3 true).triesAfter = 4 :=
  ⟨rfl, rfl, rfl⟩

/-- C5 (amended): with the retry-accounting middleware configured, the
worker never re-queues and never even executes the handler:
`Worker._process` enters each middleware by calling the instance
(`middleware(message, task)` as an async context manager), no
middleware class in the source defines `__call__`, so the first entry
raises `TypeError` before `task.fn` is reached; `_process` classifies
it as a crash and answers the first delivery with a single
nack-with-drop — the at-most-`max_tries` bound holds vacuously, with
zero executions.  `Retry.handle` itself, unreachable from the worker,
performs no entry check: it always invokes its handler argument,
accounts only on exit, raising the Retry signal
`RetryMessage(min(min_delay * backoff^(count-1), max_delay))` while the
updated count stays within `max_retries - 1` and re-raising the
original exception once it exceeds that bound. -/
theorem retry_middleware_never_requeues (mw : RetryMw) (rest : List MiddlewareClass)
    (m : Message) (fnOutcome : Outcome) :
    (runBody (.retryClass mw :: rest) fnOutcome).fnInvoked = false ∧
    Worker.process m.task_name m (runBody (.retryClass mw :: rest) fnOutcome).outcome
      = [BrokerCall.nack m 0 true] ∧
    (∀ tries raises, (Retry.handle mw tries raises).invoked = true) ∧
    (∀ tries, tries + 1 > mw.max_retries - 1 →
      (Retry.handle mw tries true).signal = some MwSignal.reraise) ∧
    (∀ tries, ¬(tries + 1 > mw.max_retries - 1) →
      (Retry.handle mw tries true).signal =
        some (MwSignal.retrySignal
          (min (mw.min_delay * mw.backoff ^ tries) mw.max_delay))) := by
  refine ⟨rfl, ?_, ?_, ?_, ?_⟩
  · simp [Worker.process, runBody, MiddlewareClass.call]
  · intro tries raises
    cases raises
    · rfl
    · by_cases hc : tries + 1 > mw.max_retries - 1 <;> simp [Retry.handle, hc]
  · intro tries h
    simp [Retry.handle, h]
  · intro tries h
    simp [Retry.handle, h]

/-- Witness for C5 (amended) at `max_retries = 3`, an empty tail of
middlewares and a concrete message whose handler would succeed. -/
theorem retry_middleware_never_requeues_witness :
    (runBody (.retryClass ⟨3, 1, 60, 2⟩ :: []) Outcome.success).fnInvoked = false ∧
    Worker.process mEx.task_name mEx
        (runBody (.retryClass ⟨3, 1, 60, 2⟩ :: []) Outcome.success).outcome
      = [BrokerCall.nack mEx 0 true] ∧
    (∀ tries raises, (Retry.handle ⟨3, 1, 60, 2⟩ tries raises).invoked = true) ∧
    (∀ tries, tries + 1 > 3 - 1 →
      (Retry.handle ⟨3, 1, 60, 2⟩ tries true).signal = some MwSignal.reraise) ∧
    (∀ tries, ¬(tries + 1 > 3 - 1) →
      (Retry.handle ⟨3, 1, 60, 2⟩ tries true).signal =
        some (MwSignal.retrySignal (min (1 * 2 ^ tries) 60))) :=
  retry_middleware_never_requeues ⟨3, 1, 60, 2⟩ [] mEx Outcome.success

/-- C6 counterexample: a message arriving half the interval after the
previous entry (`elapsed = 1/2 < min_interval = 1`) is not bounced with
a Retry signal — `RateLimit.handle` sleeps `1/2` inline, then runs the
handler; it writes nothing to `ctx`. -/
theorem rate_limit_counterexample :
    (RateLimit.handle 1 0 (1/2)).runsHandler = true ∧
    (RateLimit.handle 1 0 (1/2)).raisesRetry = false ∧
    (RateLimit.handle 1 0 (1/2)).writesCtx = false ∧
    (RateLimit.handle 1 0 (1/2)).sleepFor = 1/2 ∧
    (1/2 : ℚ) - 0 < 1 := by
  refine ⟨rfl, rfl, rfl, ?_, by norm_num⟩
  norm_num [RateLimit.handle]

/-- C6 (amended): when a message enters the rate-limit middleware less
than `min_interval` after the previous entry, the middleware still runs
the handler — it first sleeps exactly `min_interval - elapsed`, then
admits the message; it raises no Retry signal and never writes `ctx`
(so it can set neither `rate_limited` nor any try count). -/
theorem rate_limit_sleeps (min_interval lastRequest now : ℚ)
    (h : now - lastRequest < min_interval) :
    (RateLimit.handle min_interval lastRequest now).sleepFor
        = min_interval - (now - lastRequest) ∧
    (RateLimit.handle min_interval lastRequest now).runsHandler = true ∧
    (RateLimit.handle min_interval lastRequest now).raisesRetry = false ∧
    (RateLimit.handle min_interval lastRequest now).writesCtx = false := by
  refine ⟨?_, rfl, rfl, rfl⟩
  simp [RateLimit.handle, h]

/-- Witness for C6 (amended) at `min_interval = 1`, previous entry at 0,
arrival at 1/2. -/
theorem rate_limit_sleeps_witness :
    (RateLimit.handle 1 0 (1/2)).sleepFor = 1 - ((1/2 : ℚ) - 0) ∧
    (RateLimit.handle 1 0 (1/2)).runsHandler = true ∧
    (RateLimit.handle 1 0 (1/2)).raisesRetry = false ∧
    (RateLimit.handle 1 0 (1/2)).writesCtx = false :=
  rate_limit_sleeps 1 0 (1/2) (by rw [sub_zero]; exact one_half_lt_one)

/-- C7 counterexample: two jobs due in the same tick; the first publish
fails, and the second job — due, and its own publish would succeed — is
neither attempted nor advanced in that tick. -/
theorem scheduler_tick_counterexample :
    schedTick (fun m => m.id == "id-1") (fun _ => 100)
        [jEx, { msg := mEx2, next_run := 0 }] 1
      = ([], [jEx, { msg := mEx2, next_run := 0 }]) ∧
    ({ msg := mEx2, next_run := 0 } : SJob).next_run ≤ 1 ∧
    (mEx2.id == "id-1") = false :=
  ⟨rfl, by norm_num, rfl⟩

/-- C7 (amended): within one tick the due jobs are processed in order
inside a single `try`: every due job before the first failing publish is
published and advanced; the failing job and every due job after it are
not attempted and keep their `next_fire` unchanged (they retry on the
next tick).  The failed job's `next_fire` is indeed not advanced, but a
failure does abort the remainder of that tick's due list. -/
theorem scheduler_failure_aborts_tick (fails : Message → Bool) (cron : SJob → ℚ)
    (pre post : List SJob) (j : SJob)
    (hpre : ∀ p ∈ pre, fails p.msg = false) (hj : fails j.msg = true) :
    publishDue fails cron (pre ++ j :: post) =
      (pre.map SJob.msg, pre.map (fun p => SJob.advance (cron p) p) ++ j :: post) := by
  induction pre with
  | nil => simp [publishDue, hj]
  | cons p rest ih =>
    have hp : fails p.msg = false := hpre p (List.mem_cons_self _ _)
    simp only [List.cons_append, publishDue, hp, Bool.false_eq_true, if_false,
      List.append_eq_has_append]
    rw [ih (fun q hq => hpre q (List.mem_cons_of_mem _ hq))]
    simp

/-- Witness for C7 (amended): one succeeding job before one failing job. -/
theorem scheduler_failure_aborts_tick_witness :
    publishDue (fun m => m.id == "id-1") (fun _ => 100)
        ([{ msg := mEx2, next_run := 0 }] ++ jEx :: [])
      = (([({ msg := mEx2, next_run := 0 } : SJob)]).map SJob.msg,
         ([({ msg := mEx2, next_run := 0 } : SJob)]).map
             (fun p => SJob.advance ((fun _ => (100 : ℚ)) p) p) ++ jEx :: []) :=
  scheduler_failure_aborts_tick (fun m => m.id == "id-1") (fun _ => 100)
    [{ msg := mEx2, next_run := 0 }] [] jEx
    (by intro p hp; rw [List.mem_singleton] at hp; subst hp; rfl) rfl

/-- C8 counterexample: two consecutive ticks of a one-job scheduler both
publish the job's template message itself — the same message with the
same id, not a fresh copy. -/
theorem scheduler_stale_id_counterexample :
    (schedTick (fun _ => false) (fun _ => 10) [jEx] 0).1 = [mEx] ∧
    (schedTick (fun _ => false) (fun _ => 10)
        (schedTick (fun _ => false) (fun _ => 10) [jEx] 0).2 10).1 = [mEx] ∧
    mEx.id = "id-1" :=
  ⟨rfl, rfl, rfl⟩

theorem publishDue_mem (fails : Message → Bool) (cron : SJob → ℚ) :
    ∀ (l : List SJob) (m : Message), m ∈ (publishDue fails cron l).1 →
      ∃ j ∈ l, m = j.msg := by
  intro l
  induction l with
  | nil => intro m hm; simp [publishDue] at hm
  | cons j rest ih =>
    intro m hm
    by_cases hf : fails j.msg = true
    · simp [publishDue, hf] at hm
    · simp only [publishDue, hf, Bool.false_eq_true, if_false] at hm
      rcases List.mem_cons.mp hm with hm1 | hm2
      · exact ⟨j, List.mem_cons_self _ _, hm1⟩
      · obtain ⟨j2, hj2, hmj⟩ := ih m hm2
        exact ⟨j2, List.mem_cons_of_mem _ hj2, hmj⟩

/-- C8 (amended): every message published by a tick is the template
message of one of the due jobs — `broker.publish(job.msg)` makes no
copy — and advancing a job never changes its template; hence all
firings of one job publish messages carrying the template's id. -/
theorem scheduler_publishes_template (fails : Message → Bool) (cron : SJob → ℚ)
    (jobs : List SJob) (now : ℚ) :
    (∀ m ∈ (schedTick fails cron jobs now).1,
        ∃ j ∈ jobs, m = j.msg ∧ j.next_run ≤ now) ∧
    ∀ (c : ℚ) (j : SJob), (SJob.advance c j).msg = j.msg := by
  refine ⟨?_, fun c j => rfl⟩
  intro m hm
  obtain ⟨j, hj, hmj⟩ := publishDue_mem fails cron _ m hm
  rw [List.mem_filter] at hj
  exact ⟨j, hj.1, hmj, by simpa using hj.2⟩

/-- Witness for C8 (amended) at a concrete one-job scheduler. -/
theorem scheduler_publishes_template_witness :
    (∀ m ∈ (schedTick (fun _ => false) (fun _ => 10) [jEx] 0).1,
        ∃ j ∈ [jEx], m = j.msg ∧ j.next_run ≤ 0) ∧
    ∀ (c : ℚ) (j : SJob), (SJob.advance c j).msg = j.msg :=
  scheduler_publishes_template (fun _ => false) (fun _ => 10) [jEx] 0

/-- C9: along every execution of one task's poll loop, free semaphore
slots and in-flight `_process` executions sum to `concurrency`, so the
number of messages whose processing has started and not yet completed
never exceeds `concurrency`; every completion path — any outcome — is a
`finish` step returning its slot. -/
theorem worker_bounded_concurrency (c : ℕ) (s : WState) (h : WReachable c s) :
    s.inflight ≤ c ∧ s.available + s.inflight = c := by
  induction h with
  | start => simp
  | step s t hs hstep ih =>
    obtain ⟨ih1, ih2⟩ := ih
    cases hstep with
    | spawn hav =>
      refine ⟨?_, ?_⟩ <;> dsimp only <;> omega
    | finish o hin =>
      refine ⟨?_, ?_⟩ <;> dsimp only <;> omega

/-- Witness for C9: with `concurrency = 2`, the state after one spawn is
reachable and respects the bound. -/
theorem worker_bounded_concurrency_witness :
    ({ available := 1, inflight := 1 } : WState).inflight ≤ 2 ∧
    ({ available := 1, inflight := 1 } : WState).available +
      ({ available := 1, inflight := 1 } : WState).inflight = 2 :=
  worker_bounded_concurrency 2 ⟨1, 1⟩
    (WReachable.step ⟨2, 0⟩ ⟨1, 1⟩ WReachable.start (WStep.spawn ⟨2, 0⟩ (by decide)))

end Ltq
